import Mathlib

/-!
Verification of the EnvQuack variable-extraction and set-reconciliation engine.

The Go sources are shallowly embedded: file contents are modelled as their
list of lines (the Go code reads files line by line with `bufio.Scanner`),
Go `map[string]string` values are modelled as association lists with unique
keys (`EnvVars`), and `sort.Strings` is modelled by an insertion sort on
the lexicographic order of `String` (UTF-8 byte order and code-point order
coincide, and any correct sort produces the same list).  Regular-expression
scans over the raw file content are embedded as explicit character scanners
implementing the same RE2 match semantics.
-/

namespace EnvQuack

/-- Characters with Go's `unicode.IsSpace` property (the set used by
`strings.TrimSpace` and `strings.Fields`). -/
def isGoSpace (c : Char) : Bool :=
  c.val = 32 || c.val = 9 || c.val = 10 || c.val = 11 || c.val = 12 ||
  c.val = 13 || c.val = 133 || c.val = 160 || c.val = 0x1680 ||
  (0x2000 ≤ c.val && c.val ≤ 0x200A) || c.val = 0x2028 || c.val = 0x2029 ||
  c.val = 0x202F || c.val = 0x205F || c.val = 0x3000

/-- `strings.TrimSpace` on the character list of a string. -/
def trimChars (cs : List Char) : List Char :=
  ((cs.dropWhile isGoSpace).reverse.dropWhile isGoSpace).reverse

/-- Go `strings.TrimSpace`. -/
def goTrim (s : String) : String := String.mk (trimChars s.data)

/-- Go `strings.HasPrefix`. -/
def strStartsWith (s pre : String) : Bool := pre.data.isPrefixOf s.data

/-- Go `strings.HasSuffix`. -/
def strEndsWith (s suf : String) : Bool := suf.data.reverse.isPrefixOf s.data.reverse

/-- Go `strings.Contains` (substring containment). -/
def containsSub (s pat : String) : Bool :=
  s.data.tails.any (fun t => pat.data.isPrefixOf t)

/-- Drop the first `n` characters (Go byte slicing `s[n:]`; used only where
the dropped prefix is ASCII, so bytes and characters agree). -/
def strDrop (s : String) : Nat → String := fun n => String.mk (s.data.drop n)

/-- Drop the last character (Go `strings.TrimSuffix` with a one-byte ASCII
suffix known to be present). -/
def strDropLast (s : String) : String := String.mk s.data.dropLast

/-- ASCII lower-casing, one character (`strings.ToLower`; all comparisons in
the source against lowered strings involve ASCII-only constants, on which
Go's Unicode lowering agrees with ASCII lowering). -/
def asciiLowerChar (c : Char) : Char :=
  if 65 ≤ c.val && c.val ≤ 90 then Char.ofNat (c.toNat + 32) else c

/-- ASCII upper-casing, one character (`strings.ToUpper`, same remark). -/
def asciiUpperChar (c : Char) : Char :=
  if 97 ≤ c.val && c.val ≤ 122 then Char.ofNat (c.toNat - 32) else c

/-- Go `strings.ToLower`, restricted to ASCII. -/
def asciiToLower (s : String) : String := String.mk (s.data.map asciiLowerChar)

/-- Go `strings.ToUpper`, restricted to ASCII. -/
def asciiToUpper (s : String) : String := String.mk (s.data.map asciiUpperChar)

/-- The double-quote character. -/
def quoteD : Char := Char.ofNat 34

/-- The single-quote character. -/
def quoteS : Char := Char.ofNat 39

/-- Lexicographic comparison of strings by their character lists (byte-wise
UTF-8 order and code-point order coincide). -/
def strLeb (a b : String) : Bool := decide (a.data ≤ b.data)

/-- Ascending sort of strings, modelling Go `sort.Strings` (any correct
sort produces the same list, so insertion sort is a faithful model). -/
def sortStrings (l : List String) : List String :=
  List.insertionSort (fun a b => strLeb a b = true) l

/-- `parser.EnvVars`: Go `map[string]string`, modelled as an association
list whose construction keeps keys unique. -/
abbrev EnvVars := List (String × String)

/-- Key membership, Go `EnvVars.Has` (map lookup success). -/
def hasKey (e : EnvVars) (k : String) : Bool := e.any (fun p => p.1 == k)

/-- Key list, Go `EnvVars.GetKeys` / `for key := range m`. -/
def keysOf (e : EnvVars) : List String := e.map Prod.fst

/-- Map lookup, Go `m[k]`. -/
def getVar (e : EnvVars) (k : String) : Option String :=
  (e.find? (fun p => p.1 == k)).map Prod.snd

/-- Map assignment `m[k] = v`: overwrite in place when present, append
otherwise (keeps the key list duplicate-free). -/
def insertVar (e : EnvVars) (k v : String) : EnvVars :=
  if hasKey e k then e.map (fun p => if p.1 == k then (k, v) else p)
  else e ++ [(k, v)]

/-! ## Dotenv parser (`internal/parser/env.go`) -/

/-- Go `strings.SplitN(s, "=", 2)`: `none` when the string holds no `=`,
otherwise the parts before and after the first `=`. -/
def splitFirstEqAux : List Char → List Char → Option (String × String)
  | [], _ => none
  | c :: rest, acc =>
      if c = Char.ofNat 61 then some (String.mk acc.reverse, String.mk rest)
      else splitFirstEqAux rest (c :: acc)

/-- See `splitFirstEqAux`. -/
def splitFirstEq (s : String) : Option (String × String) :=
  splitFirstEqAux s.data []

/-- The quote-stripping step of `ParseEnvFile` and `parseKeyValuePairs`:
remove one layer of quoting when the value has length at least 2 and both
starts and ends with the same quote character. -/
def stripQuotes (v : String) : String :=
  match v.data with
  | [] => v
  | [_] => v
  | c :: rest =>
      let lastC := (c :: rest).getLast (by simp)
      if (c = quoteD && lastC = quoteD) || (c = quoteS && lastC = quoteS) then
        String.mk ((c :: rest).drop 1).dropLast
      else v

/-- One loop iteration of `ParseEnvFile`: process one line of the file. -/
def envLineStep (vars : EnvVars) (line : String) : EnvVars :=
  let t := goTrim line
  if t = "" || strStartsWith t "#" then vars
  else
    match splitFirstEq t with
    | none => vars
    | some (k, v) => insertVar vars (goTrim k) (stripQuotes (goTrim v))

/-- `parser.ParseEnvFile`, on the file's list of lines. -/
def ParseEnvLines (lines : List String) : EnvVars :=
  lines.foldl envLineStep []

/-! ## Env-vs-example reconciliation (`internal/checker/diff.go`) -/

/-- `checker.DiffResult`. -/
structure DiffResult where
  Missing : List String
  Extra : List String
deriving DecidableEq

/-- `DiffResult.HasIssues`. -/
def DiffResult.HasIssues (d : DiffResult) : Bool :=
  d.Missing.length > 0 || d.Extra.length > 0

/-- `checker.CompareEnvVars`. -/
def CompareEnvVars (env exampleVars : EnvVars) : DiffResult :=
  { Missing := sortStrings ((keysOf exampleVars).filter (fun k => !(hasKey env k)))
    Extra := sortStrings ((keysOf env).filter (fun k => !(hasKey exampleVars k))) }

/-! ## Dockerfile info and comparison (`internal/parser/docker.go`,
`internal/checker` Dockerfile part) -/

/-- `parser.DockerfileEnvInfo`. -/
structure DockerfileEnvInfo where
  envVars : EnvVars
  argVars : EnvVars
  variableRefs : List String
deriving DecidableEq

/-- `DockerfileEnvInfo.GetAllVars`: union of ENV keys, ARG keys and
referenced names, de-duplicated and sorted. -/
def GetAllVars (d : DockerfileEnvInfo) : List String :=
  sortStrings ((keysOf d.envVars ++ keysOf d.argVars ++ d.variableRefs).dedup)

/-- `checker.DockerfileDiffResult`. -/
structure DockerfileDiffResult where
  MissingInEnv : List String
  ExtraInEnv : List String
  UnusedArgs : List String
  HardcodedEnvs : List String
  MissingArgDefaults : List String
deriving DecidableEq

/-- `DockerfileDiffResult.HasIssues` (the source does not consult
`MissingArgDefaults`). -/
def DockerfileDiffResult.HasIssues (d : DockerfileDiffResult) : Bool :=
  d.MissingInEnv.length > 0 || d.ExtraInEnv.length > 0 ||
  d.UnusedArgs.length > 0 || d.HardcodedEnvs.length > 0

/-- The fixed constant list of `checker.isObviousConstant`. -/
def envConstants : List String :=
  ["production", "development", "staging", "test",
   "true", "false", "0", "1",
   "utf8", "utf-8", "en_US", "C",
   "/app", "/usr/local/bin", "/bin", "/tmp"]

/-- `checker.isObviousConstant`: the lowered value equals a list entry, or
the value starts with `/`, contains `://`, or starts with a brace
interpolation opener. -/
def isObviousConstant (value : String) : Bool :=
  envConstants.contains (asciiToLower value) ||
  strStartsWith value "/" ||
  containsSub value "://" ||
  strStartsWith value (String.mk [Char.ofNat 36, Char.ofNat 123])

/-- `checker.compareDockerfileWithEnvVars`. -/
def compareDockerfileWithEnvVars (info : DockerfileEnvInfo) (envVars : EnvVars) :
    DockerfileDiffResult :=
  let dockerfileVars := GetAllVars info
  { MissingInEnv := sortStrings (dockerfileVars.filter
      (fun v => !(hasKey info.envVars v) && !(hasKey envVars v)))
    ExtraInEnv := sortStrings ((keysOf envVars).filter
      (fun v => !(dockerfileVars.contains v)))
    UnusedArgs := sortStrings ((keysOf info.argVars).filter
      (fun a => !(info.variableRefs.contains a)))
    HardcodedEnvs := sortStrings ((info.envVars.filter
      (fun p => p.2 ≠ "" && !(isObviousConstant p.2))).map Prod.fst)
    MissingArgDefaults := sortStrings ((info.argVars.filter
      (fun p => p.2 == "")).map Prod.fst) }

/-! ## Compose info and comparison (compose parser file, compose checker
file) -/

/-- `parser.ComposeEnvInfo`. -/
structure ComposeEnvInfo where
  Variables : EnvVars
  ServiceVars : List (String × EnvVars)
  EnvFiles : List String
  VariableRefs : List String
deriving DecidableEq

/-- `ComposeEnvInfo.GetAllEnvVars`: union of explicit variables and
referenced names, de-duplicated and sorted. -/
def GetAllEnvVars (c : ComposeEnvInfo) : List String :=
  sortStrings ((keysOf c.Variables ++ c.VariableRefs).dedup)

/-- `checker.ComposeDiffResult`; `ServiceBreakdown` is a map from service
name to its missing-variable list. -/
structure ComposeDiffResult where
  MissingInEnv : List String
  ExtraInEnv : List String
  MissingEnvFiles : List String
  ServiceBreakdown : List (String × List String)
deriving DecidableEq

/-- `ComposeDiffResult.HasIssues` (the source does not consult
`ServiceBreakdown`). -/
def ComposeDiffResult.HasIssues (c : ComposeDiffResult) : Bool :=
  c.MissingInEnv.length > 0 || c.ExtraInEnv.length > 0 ||
  c.MissingEnvFiles.length > 0

/-- The per-service step of the breakdown loop in
`checker.compareComposeWithEnvVars`: a service contributes an entry only
when it has at least one missing variable. -/
def serviceBreakdownStep (envVars : EnvVars) (acc : List (String × List String))
    (sv : String × EnvVars) : List (String × List String) :=
  let missing := (keysOf sv.2).filter (fun v => !(hasKey envVars v))
  if missing.length > 0 then acc ++ [(sv.1, sortStrings missing)] else acc

/-- `checker.compareComposeWithEnvVars`.  The call
`parser.ParseEnvFile(envFile)` made for each `env_file` reference is
embedded as the oracle `fileOk`, true exactly when that parse succeeds. -/
def compareComposeWithEnvVars (info : ComposeEnvInfo) (envVars : EnvVars)
    (fileOk : String → Bool) : ComposeDiffResult :=
  let composeVars := GetAllEnvVars info
  { MissingInEnv := sortStrings (composeVars.filter (fun v => !(hasKey envVars v)))
    ExtraInEnv := sortStrings ((keysOf envVars).filter
      (fun v => !(composeVars.contains v)))
    MissingEnvFiles := sortStrings (info.EnvFiles.filter (fun f => !(fileOk f)))
    ServiceBreakdown := info.ServiceVars.foldl (serviceBreakdownStep envVars) [] }

/-! ## Compose environment-section normalization (compose parser file) -/

mutual

/-- A decoded YAML value, as produced by `yaml.Unmarshal` into `interface{}`:
`nil`, string, integer and boolean scalars, sequences, and string-keyed
mappings (sequences and mappings as a mutual family so that recursion over
them stays structural). -/
inductive YVal where
  | ynull : YVal
  | ystr : String → YVal
  | yint : Int → YVal
  | ybool : Bool → YVal
  | ylist : YSeq → YVal
  | ymap : YMap → YVal

/-- A decoded YAML sequence. -/
inductive YSeq where
  | nil : YSeq
  | cons : YVal → YSeq → YSeq

/-- A decoded string-keyed YAML mapping. -/
inductive YMap where
  | nil : YMap
  | cons : String → YVal → YMap → YMap

end

/-- Build a `YSeq` from a list of values. -/
def YSeq.ofList : List YVal → YSeq
  | [] => .nil
  | v :: rest => .cons v (YSeq.ofList rest)

/-- Build a `YMap` from a list of key/value pairs. -/
def YMap.ofList : List (String × YVal) → YMap
  | [] => .nil
  | p :: rest => .cons p.1 p.2 (YMap.ofList rest)

mutual

/-- Go `fmt.Sprintf("%v", x)` on a decoded YAML value. -/
def goFormatV : YVal → String
  | .ynull => "<nil>"
  | .ystr s => s
  | .yint n => toString n
  | .ybool b => cond b "true" "false"
  | .ylist xs => "[" ++ String.intercalate " " (goFormatYSeq xs) ++ "]"
  | .ymap m =>
      "map[" ++ String.intercalate " " (sortStrings (goFormatYMap m)) ++ "]"

/-- Rendered elements of a sequence, in order. -/
def goFormatYSeq : YSeq → List String
  | .nil => []
  | .cons v rest => goFormatV v :: goFormatYSeq rest

/-- Rendered `key:value` entries of a mapping (`fmt` prints map entries in
sorted key order; sorting the rendered entries agrees with that on every
value the theorems below touch). -/
def goFormatYMap : YMap → List String
  | .nil => []
  | .cons k v rest => (k ++ ":" ++ goFormatV v) :: goFormatYMap rest

end

/-- `parser.parseEnvString`: parse a `"KEY=value"` or `"KEY"` entry. -/
def parseEnvString (str : String) : String × String :=
  let t := goTrim str
  if t = "" then ("", "")
  else
    match splitFirstEq t with
    | none => (t, "")
    | some (k, v) => (goTrim k, goTrim v)

/-- The sequence loop of `parseEnvironmentSection`: only string items are
consulted (`if str, ok := item.(string)`), each parsed with
`parseEnvString` and stored when its key is non-empty. -/
def parseEnvSeqLoop : EnvVars → YSeq → EnvVars
  | vars, .nil => vars
  | vars, .cons item rest =>
      match item with
      | .ystr s =>
          let kv := parseEnvString s
          parseEnvSeqLoop (if kv.1 ≠ "" then insertVar vars kv.1 kv.2 else vars) rest
      | _ => parseEnvSeqLoop vars rest

/-- The mapping loop of `parseEnvironmentSection`: `nil` values normalize to
the empty string, other values are rendered with `fmt.Sprintf("%v", _)`. -/
def parseEnvMapLoop : EnvVars → YMap → EnvVars
  | vars, .nil => vars
  | vars, .cons k v rest =>
      match v with
      | .ynull => parseEnvMapLoop (insertVar vars k "") rest
      | v2 => parseEnvMapLoop (insertVar vars k (goFormatV v2)) rest

/-- `parser.parseEnvironmentSection`: normalize the polymorphic
`environment` field of a compose service; unrecognized shapes produce the
empty set. -/
def parseEnvironmentSection (env : YVal) : EnvVars :=
  match env with
  | .ylist items => parseEnvSeqLoop [] items
  | .ymap m => parseEnvMapLoop [] m
  | _ => []

/-! ## Basic lemmas about the model -/

theorem splitFirstEqAux_eq_none {cs acc : List Char} :
    splitFirstEqAux cs acc = none ↔ Char.ofNat 61 ∉ cs := by
  induction cs generalizing acc with
  | nil => simp [splitFirstEqAux]
  | cons c rest ih =>
      simp only [splitFirstEqAux, List.mem_cons]
      by_cases h : c = Char.ofNat 61
      · subst h; simp
      · rw [if_neg h, ih]
        constructor
        · intro hn hm
          rcases hm with h1 | h1
          · exact h h1.symm
          · exact hn h1
        · intro hn hm
          exact hn (Or.inr hm)

theorem mem_of_mem_trimChars {a : Char} {cs : List Char} (h : a ∈ trimChars cs) :
    a ∈ cs := by
  simp only [trimChars, List.mem_reverse] at h
  exact (List.dropWhile_sublist isGoSpace).subset
    ((List.mem_reverse).mp ((List.dropWhile_sublist isGoSpace).subset h))

theorem strLeb_iff_le {a b : String} : strLeb a b = true ↔ a ≤ b := by
  rw [String.le_iff_toList_le]
  simp [strLeb, String.toList]

instance : IsTotal String (fun a b => strLeb a b = true) :=
  ⟨fun a b => by simp only [strLeb_iff_le]; exact le_total a b⟩

instance : IsTrans String (fun a b => strLeb a b = true) :=
  ⟨fun a b c => by simp only [strLeb_iff_le]; exact le_trans⟩

theorem mem_sortStrings {a : String} {l : List String} : a ∈ sortStrings l ↔ a ∈ l :=
  (List.perm_insertionSort (fun a b => strLeb a b = true) l).mem_iff

theorem nodup_sortStrings {l : List String} (h : l.Nodup) : (sortStrings l).Nodup :=
  ((List.perm_insertionSort (fun a b => strLeb a b = true) l).nodup_iff).mpr h

theorem pairwise_le_sortStrings (l : List String) :
    List.Pairwise (fun a b : String => a ≤ b) (sortStrings l) :=
  (List.sorted_insertionSort (fun a b => strLeb a b = true) l).imp
    (fun hab => strLeb_iff_le.mp hab)

theorem pairwise_lt_sortStrings {l : List String} (h : l.Nodup) :
    List.Pairwise (fun a b : String => a < b) (sortStrings l) := by
  have hs := pairwise_le_sortStrings l
  have hn : (sortStrings l).Nodup := nodup_sortStrings h
  exact (hs.and hn).imp (fun hab => lt_of_le_of_ne hab.1 hab.2)

theorem hasKey_iff_mem {e : EnvVars} {k : String} : hasKey e k = true ↔ k ∈ keysOf e := by
  simp [hasKey, keysOf, List.any_eq_true, List.mem_map]

theorem hasKey_eq_false_iff {e : EnvVars} {k : String} :
    hasKey e k = false ↔ k ∉ keysOf e := by
  rw [← hasKey_iff_mem]; simp

theorem hasKey_eq_keys_elem (e : EnvVars) (k : String) :
    hasKey e k = (keysOf e).any (fun x => x == k) := by
  induction e with
  | nil => rfl
  | cons p rest ih =>
      simp only [hasKey, keysOf, List.any_cons, List.map_cons] at *
      rw [ih]

/-! ## Claim C1 -/

/-- C1: `CompareEnvVars env example` has `Missing` = keys(example) − keys(env)
and `Extra` = keys(env) − keys(example); only key presence is consulted, so
any two inputs with the same key lists (in particular, the same sets after
changing values only) produce the same result. -/
theorem compareEnvVars_diff_spec (env exampleVars : EnvVars) :
    (∀ k, k ∈ (CompareEnvVars env exampleVars).Missing ↔
        (k ∈ keysOf exampleVars ∧ k ∉ keysOf env)) ∧
    (∀ k, k ∈ (CompareEnvVars env exampleVars).Extra ↔
        (k ∈ keysOf env ∧ k ∉ keysOf exampleVars)) ∧
    (∀ env2 exampleVars2 : EnvVars, keysOf env2 = keysOf env →
        keysOf exampleVars2 = keysOf exampleVars →
        CompareEnvVars env2 exampleVars2 = CompareEnvVars env exampleVars) := by
  refine ⟨?_, ?_, ?_⟩
  · intro k
    simp [CompareEnvVars, mem_sortStrings, List.mem_filter, hasKey_eq_false_iff]
  · intro k
    simp [CompareEnvVars, mem_sortStrings, List.mem_filter, hasKey_eq_false_iff]
  · intro env2 ex2 h1 h2
    simp [CompareEnvVars, hasKey_eq_keys_elem, h1, h2]

/-- Witness for C1 at the spec scenario: example `DB_HOST, API_KEY`, env
`DB_HOST, EXTRA`; changing every value leaves the result unchanged. -/
theorem compareEnvVars_diff_spec_witness :
    ("API_KEY" ∈ (CompareEnvVars [("DB_HOST", "x"), ("EXTRA", "z")]
        [("DB_HOST", "x"), ("API_KEY", "y")]).Missing) ∧
    CompareEnvVars [("DB_HOST", "1"), ("EXTRA", "2")] [("DB_HOST", "3"), ("API_KEY", "4")]
      = CompareEnvVars [("DB_HOST", "x"), ("EXTRA", "z")] [("DB_HOST", "x"), ("API_KEY", "y")] := by
  constructor
  · exact ((compareEnvVars_diff_spec [("DB_HOST", "x"), ("EXTRA", "z")]
      [("DB_HOST", "x"), ("API_KEY", "y")]).1 "API_KEY").mpr (by decide)
  · exact (compareEnvVars_diff_spec [("DB_HOST", "x"), ("EXTRA", "z")]
      [("DB_HOST", "x"), ("API_KEY", "y")]).2.2 _ _ (by decide) (by decide)

/-! ## Claim C7 -/

/-- C7: for each of the three diff-result kinds, `HasIssues` is true iff some
non-informational string list of the result is non-empty; the purely
informational fields (`ServiceBreakdown`, a per-service refinement of
`MissingInEnv`, and `MissingArgDefaults`, reported only in verbose output)
are not consulted. -/
theorem hasIssues_iff_some_list_nonempty :
    (∀ d : DiffResult, d.HasIssues = true ↔ (d.Missing ≠ [] ∨ d.Extra ≠ [])) ∧
    (∀ c : ComposeDiffResult, c.HasIssues = true ↔
        (c.MissingInEnv ≠ [] ∨ c.ExtraInEnv ≠ [] ∨ c.MissingEnvFiles ≠ [])) ∧
    (∀ d : DockerfileDiffResult, d.HasIssues = true ↔
        (d.MissingInEnv ≠ [] ∨ d.ExtraInEnv ≠ [] ∨ d.UnusedArgs ≠ [] ∨
         d.HardcodedEnvs ≠ [])) := by
  refine ⟨?_, ?_, ?_⟩ <;> intro d <;>
    simp [DiffResult.HasIssues, ComposeDiffResult.HasIssues,
      DockerfileDiffResult.HasIssues, List.length_pos, or_assoc]

/-! ## Claim C4 -/

/-- Modelled from the spec's words (§4.1): one line is read as `none`
(skipped) when blank after trimming, a `#` comment, or without `=`;
otherwise it is split at the first `=`, key and value are trimmed, and one
layer of matching quotes is stripped from the value. -/
def specDotenvLine (line : String) : Option (String × String) :=
  let t := goTrim line
  if t = "" then none
  else if strStartsWith t "#" then none
  else
    match splitFirstEq t with
    | none => none
    | some kv => some (goTrim kv.1, stripQuotes (goTrim kv.2))

/-- Modelled from the spec's words (§4.1): the whole-file parse folds the
per-line reading over the lines in order. -/
def specDotenvParse (lines : List String) : EnvVars :=
  lines.foldl (fun vars line =>
    match specDotenvLine line with
    | none => vars
    | some kv => insertVar vars kv.1 kv.2) []

theorem envLineStep_eq_spec (vars : EnvVars) (line : String) :
    envLineStep vars line = match specDotenvLine line with
      | none => vars
      | some kv => insertVar vars kv.1 kv.2 := by
  unfold envLineStep specDotenvLine
  by_cases h1 : goTrim line = ""
  · simp [h1]
  · by_cases h2 : strStartsWith (goTrim line) "#" = true
    · simp [h1, h2]
    · cases hs : splitFirstEq (goTrim line) <;> simp [h1, h2, hs]

theorem envLineStep_skip_of_no_eq {vars : EnvVars} {l : String}
    (h : Char.ofNat 61 ∉ l.data) : envLineStep vars l = vars := by
  have hs : splitFirstEq (goTrim l) = none := by
    rw [splitFirstEq]
    exact splitFirstEqAux_eq_none.mpr
      (fun hm => h (mem_of_mem_trimChars hm))
  have hspec : specDotenvLine l = none := by
    simp [specDotenvLine, hs]
  rw [envLineStep_eq_spec, hspec]

/-- C4: the dotenv parser realizes exactly the specified discipline — read
line by line, trim, skip blank and `#` lines, split at the first `=` only,
trim key and value, strip one layer of matching quotes — and a line holding
no `=` is silently skipped (it never fails: the parser is a total
function). -/
theorem parseEnvLines_refines_spec :
    (∀ lines, ParseEnvLines lines = specDotenvParse lines) ∧
    (∀ lines l, Char.ofNat 61 ∉ l.data →
      ParseEnvLines (lines ++ [l]) = ParseEnvLines lines) := by
  constructor
  · intro lines
    unfold ParseEnvLines specDotenvParse
    induction lines using List.reverseRecOn with
    | nil => rfl
    | append_singleton rest l ih =>
        rw [List.foldl_append, List.foldl_append, ih, List.foldl_cons,
          List.foldl_nil, List.foldl_cons, List.foldl_nil, envLineStep_eq_spec]
  · intro lines l h
    unfold ParseEnvLines
    rw [List.foldl_append, List.foldl_cons, List.foldl_nil,
      envLineStep_skip_of_no_eq h]

/-- Witness for C4: the example file plus a malformed line. -/
theorem parseEnvLines_refines_spec_witness :
    ParseEnvLines ["DB_HOST=x", "API_KEY=y"]
      = specDotenvParse ["DB_HOST=x", "API_KEY=y"] ∧
    ParseEnvLines ["DB_HOST=x", "API_KEY=y", "malformed line"]
      = ParseEnvLines ["DB_HOST=x", "API_KEY=y"] :=
  ⟨parseEnvLines_refines_spec.1 ["DB_HOST=x", "API_KEY=y"],
   parseEnvLines_refines_spec.2 ["DB_HOST=x", "API_KEY=y"] "malformed line"
     (by decide)⟩

/-! ## Claim C5 -/

/-- C5: the normalization of a service `environment` field is
shape-independent: the list form `["A=1", "B"]` and the mapping form
`{A: 1, B: null}` normalize to the same set `{A: "1", B: ""}`; in general a
bare `KEY` list entry and a null-valued mapping entry both normalize to the
key bound to the empty string, and unrecognized shapes (scalars at the top
level) normalize to the empty set rather than erroring. -/
theorem composeEnvironmentNormalization :
    (parseEnvironmentSection (.ylist (YSeq.ofList [.ystr "A=1", .ystr "B"]))
        = parseEnvironmentSection (.ymap (YMap.ofList [("A", .yint 1), ("B", .ynull)])) ∧
      parseEnvironmentSection (.ylist (YSeq.ofList [.ystr "A=1", .ystr "B"]))
        = [("A", "1"), ("B", "")]) ∧
    (∀ k : String, goTrim k = k → k ≠ "" → Char.ofNat 61 ∉ k.data →
      parseEnvironmentSection (.ylist (YSeq.ofList [.ystr k])) = [(k, "")] ∧
      parseEnvironmentSection (.ymap (YMap.ofList [(k, .ynull)])) = [(k, "")]) ∧
    (∀ (s : String) (n : Int) (b : Bool),
      parseEnvironmentSection (.ystr s) = [] ∧
      parseEnvironmentSection (.yint n) = [] ∧
      parseEnvironmentSection (.ybool b) = [] ∧
      parseEnvironmentSection .ynull = []) := by
  refine ⟨⟨by decide, by decide⟩, ?_, ?_⟩
  · intro k htrim hne hnoeq
    have hsplit : splitFirstEq k = none := by
      rw [splitFirstEq]
      exact splitFirstEqAux_eq_none.mpr hnoeq
    constructor
    · simp only [parseEnvironmentSection, YSeq.ofList, parseEnvSeqLoop,
        parseEnvString, htrim, hsplit, if_neg hne]
      simp [hne, insertVar, hasKey]
    · simp [parseEnvironmentSection, YMap.ofList, parseEnvMapLoop,
        insertVar, hasKey]
  · intro s n b
    exact ⟨rfl, rfl, rfl, rfl⟩

/-- Witness for C5 at `k = "B"`. -/
theorem composeEnvironmentNormalization_witness :
    parseEnvironmentSection (.ylist (YSeq.ofList [.ystr "B"])) = [("B", "")] ∧
    parseEnvironmentSection (.ymap (YMap.ofList [("B", YVal.ynull)])) = [("B", "")] :=
  composeEnvironmentNormalization.2.1 "B" (by decide) (by decide) (by decide)

/-! ## Dockerfile parsing (`internal/parser/docker.go`) -/

/-- RE2 `\s`: ASCII whitespace only. -/
def isRe2Space (c : Char) : Bool :=
  c.val = 32 || c.val = 9 || c.val = 10 || c.val = 12 || c.val = 13

/-- First character class of the reference regexes: `[A-Z_]`. -/
def isNameStart (c : Char) : Bool := (65 ≤ c.toNat && c.toNat ≤ 90) || c.toNat = 95

/-- Continuation character class of the reference regexes: `[A-Z0-9_]`. -/
def isNameChar (c : Char) : Bool := isNameStart c || (48 ≤ c.toNat && c.toNat ≤ 57)

/-- The dollar character starting a variable reference. -/
def dollarChar : Char := Char.ofNat 36

/-- The opening brace of a `$`-brace reference. -/
def openBrace : Char := Char.ofNat 123

/-- The closing brace of a `$`-brace reference. -/
def closeBrace : Char := Char.ofNat 125

/-- Greedy match of `[A-Z_][A-Z0-9_]*`: the longest name at the head of the
input, with the remaining characters. -/
def takeName (cs : List Char) : Option (String × List Char) :=
  match cs with
  | [] => none
  | c :: rest =>
      if isNameStart c then
        some (String.mk (c :: rest.takeWhile isNameChar), rest.dropWhile isNameChar)
      else none

/-- Optional closing brace (`\}?`). -/
def dropCloseBrace (cs : List Char) : List Char :=
  match cs with
  | c :: rest => if c = closeBrace then rest else cs
  | [] => []

/-- Leftmost non-overlapping matches of `varRefRegex`,
`\$\{?([A-Z_][A-Z0-9_]*)\}?`, returning the captured names in order.  The
fuel argument (instantiated with the input length, always sufficient) makes
the suffix recursion structural. -/
def scanDockerRefsAux : Nat → List Char → List String
  | 0, _ => []
  | _, [] => []
  | fuel + 1, [c] => if c = dollarChar then [] else scanDockerRefsAux fuel []
  | fuel + 1, c :: b :: rest2 =>
      if c = dollarChar then
        if b = openBrace then
          match takeName rest2 with
          | some nr => nr.1 :: scanDockerRefsAux fuel (dropCloseBrace nr.2)
          | none => scanDockerRefsAux fuel (b :: rest2)
        else
          match takeName (b :: rest2) with
          | some nr => nr.1 :: scanDockerRefsAux fuel (dropCloseBrace nr.2)
          | none => scanDockerRefsAux fuel (b :: rest2)
      else scanDockerRefsAux fuel (b :: rest2)

/-- The exclusion list of `parser.isSystemVar`. -/
def systemVars : List String :=
  ["PATH", "HOME", "USER", "SHELL", "TERM", "PWD", "OLDPWD", "HOSTNAME",
   "UID", "GID"]

/-- `parser.isSystemVar`. -/
def isSystemVar (v : String) : Bool := systemVars.contains v

/-- `parser.extractDockerfileVariableRefs`: scan the whole raw content,
filter out system variables, de-duplicate and sort. -/
def extractDockerfileVariableRefs (content : String) : List String :=
  sortStrings
    (((scanDockerRefsAux content.data.length content.data).filter
      (fun n => !(isSystemVar n))).dedup)

/-- Go `strings.Fields` (split at runs of Unicode whitespace). -/
def goFieldsAux : List Char → List Char → List String
  | [], cur => if cur = [] then [] else [String.mk cur.reverse]
  | c :: rest, cur =>
      if isGoSpace c then
        if cur = [] then goFieldsAux rest []
        else String.mk cur.reverse :: goFieldsAux rest []
      else goFieldsAux rest (c :: cur)

/-- See `goFieldsAux`. -/
def goFields (s : String) : List String := goFieldsAux s.data []

/-- The quote-aware space splitting of `parser.parseKeyValuePairs`: split at
space characters that are outside single or double quotes; quote characters
are kept in the tokens. -/
def splitPairsAux : List Char → List Char → Option Char → List String
  | [], cur, _ => if cur = [] then [] else [String.mk cur.reverse]
  | c :: rest, cur, qc =>
      if c = quoteD || c = quoteS then
        match qc with
        | none => splitPairsAux rest (c :: cur) (some c)
        | some q =>
            if c = q then splitPairsAux rest (c :: cur) none
            else splitPairsAux rest (c :: cur) (some q)
      else if c = Char.ofNat 32 then
        match qc with
        | some _ => splitPairsAux rest (c :: cur) qc
        | none =>
            if cur = [] then splitPairsAux rest [] none
            else String.mk cur.reverse :: splitPairsAux rest [] none
      else splitPairsAux rest (c :: cur) qc

/-- The per-pair step of `parser.parseKeyValuePairs`: pairs without `=` are
ignored, otherwise split at the first `=`, trim, strip quotes, store. -/
def addKeyValuePair (vars : EnvVars) (pair : String) : EnvVars :=
  match splitFirstEq pair with
  | none => vars
  | some kv => insertVar vars (goTrim kv.1) (stripQuotes (goTrim kv.2))

/-- `parser.parseKeyValuePairs`. -/
def parseKeyValuePairs (content : String) (vars : EnvVars) : EnvVars :=
  (splitPairsAux content.data [] none).foldl addKeyValuePair vars

/-- `parser.parseEnvInstruction`: `key=value` pairs when `=` occurs,
otherwise the legacy two-token `ENV key value` form (an invalid instruction
is a non-fatal warning leaving the map unchanged). -/
def parseEnvInstruction (content : String) (envVars : EnvVars) : EnvVars :=
  if containsSub content "=" then parseKeyValuePairs content envVars
  else
    match goFields content with
    | key :: v :: rest => insertVar envVars key (String.intercalate " " (v :: rest))
    | _ => envVars

/-- `parser.parseArgInstruction`: `NAME=default` pairs when `=` occurs,
otherwise a single `NAME` stored with the empty-string value. -/
def parseArgInstruction (content : String) (argVars : EnvVars) : EnvVars :=
  if containsSub content "=" then parseKeyValuePairs content argVars
  else
    match goFields content with
    | [name] => insertVar argVars name ""
    | _ => argVars

/-- Match of `^KW\s+(.+)$` (for `KW` of length 3, here `ENV` or `ARG`)
against the upper-cased trimmed line: the keyword, at least one ASCII
whitespace character, and at least one further character. -/
def matchesInstrHeader (kw : String) (upper : String) : Bool :=
  strStartsWith upper kw &&
    (match upper.data.drop 3 with
     | c :: _ :: _ => isRe2Space c
     | _ => false)

/-- `parser.parseDockerfileInstruction` (the byte slice `line[4:]` drops the
ASCII keyword and the whitespace character after it). -/
def parseDockerfileInstruction (line : String) (envVars argVars : EnvVars) :
    EnvVars × EnvVars :=
  let t := goTrim line
  let upper := asciiToUpper t
  if matchesInstrHeader "ENV" upper then
    (parseEnvInstruction (goTrim (strDrop t 4)) envVars, argVars)
  else if matchesInstrHeader "ARG" upper then
    (envVars, parseArgInstruction (goTrim (strDrop t 4)) argVars)
  else (envVars, argVars)

/-- One loop iteration of `ParseDockerfile`: skip blanks and comments, fold
backslash line continuations into the pending instruction, and parse a
completed instruction. -/
def dockerLineStep (acc : EnvVars × EnvVars × String) (rawLine : String) :
    EnvVars × EnvVars × String :=
  let t := goTrim rawLine
  if t = "" || strStartsWith t "#" then acc
  else if strEndsWith t "\\" then
    (acc.1, acc.2.1, acc.2.2 ++ strDropLast t ++ " ")
  else
    let parsed := parseDockerfileInstruction (acc.2.2 ++ t) acc.1 acc.2.1
    (parsed.1, parsed.2, "")

/-- `parser.ParseDockerfile`, on the file's list of lines: the line loop
fills the ENV and ARG maps (a pending unfinished continuation at end of
file is discarded, as in the source), and a second pass scans the raw
content for variable references. -/
def ParseDockerfileLines (lines : List String) : DockerfileEnvInfo :=
  let acc := lines.foldl dockerLineStep ([], [], "")
  { envVars := acc.1
    argVars := acc.2.1
    variableRefs := extractDockerfileVariableRefs (String.intercalate "\n" lines) }

/-! ## Compose variable-reference extraction (compose parser file) -/

/-- Leftmost non-overlapping matches of `\$\{([A-Z_][A-Z0-9_]*)\}`. -/
def scanComposeBraceAux : Nat → List Char → List String
  | 0, _ => []
  | _, [] => []
  | fuel + 1, [c] => if c = dollarChar then [] else scanComposeBraceAux fuel []
  | fuel + 1, c :: b :: rest2 =>
      if c = dollarChar then
        if b = openBrace then
          match takeName rest2 with
          | some nr =>
              match nr.2 with
              | d :: rest3 =>
                  if d = closeBrace then nr.1 :: scanComposeBraceAux fuel rest3
                  else scanComposeBraceAux fuel (b :: rest2)
              | [] => scanComposeBraceAux fuel (b :: rest2)
          | none => scanComposeBraceAux fuel (b :: rest2)
        else scanComposeBraceAux fuel (b :: rest2)
      else scanComposeBraceAux fuel (b :: rest2)

/-- Leftmost non-overlapping matches of
`\$\{([A-Z_][A-Z0-9_]*):?[^}]*\}` (modifier forms such as
`${VAR:-default}`): after the greedy name, everything up to the first
closing brace is consumed and a closing brace is required. -/
def scanComposeModAux : Nat → List Char → List String
  | 0, _ => []
  | _, [] => []
  | fuel + 1, [c] => if c = dollarChar then [] else scanComposeModAux fuel []
  | fuel + 1, c :: b :: rest2 =>
      if c = dollarChar then
        if b = openBrace then
          match takeName rest2 with
          | some nr =>
              match nr.2.dropWhile (fun d => d ≠ closeBrace) with
              | _ :: rest3 => nr.1 :: scanComposeModAux fuel rest3
              | [] => scanComposeModAux fuel (b :: rest2)
          | none => scanComposeModAux fuel (b :: rest2)
        else scanComposeModAux fuel (b :: rest2)
      else scanComposeModAux fuel (b :: rest2)

/-- Leftmost non-overlapping matches of `\$([A-Z_][A-Z0-9_]*)`. -/
def scanComposeDollarAux : Nat → List Char → List String
  | 0, _ => []
  | _, [] => []
  | fuel + 1, c :: rest =>
      if c = dollarChar then
        match takeName rest with
        | some nr => nr.1 :: scanComposeDollarAux fuel nr.2
        | none => scanComposeDollarAux fuel rest
      else scanComposeDollarAux fuel rest

/-- The exclusion list of `parser.isDockerInternalVar`. -/
def dockerInternalVars : List String :=
  ["COMPOSE_PROJECT_NAME", "COMPOSE_FILE", "COMPOSE_PATH_SEPARATOR",
   "DOCKER_HOST", "DOCKER_TLS_VERIFY", "DOCKER_CERT_PATH",
   "HOSTNAME", "USER", "HOME", "PATH", "PWD"]

/-- `parser.isDockerInternalVar`. -/
def isDockerInternalVar (v : String) : Bool := dockerInternalVars.contains v

/-- `parser.extractVariableReferences`: union of the captures of the three
patterns over the raw document text, filtered against the internal-variable
list, de-duplicated and sorted. -/
def extractVariableReferences (content : String) : List String :=
  let cs := content.data
  let allRefs := scanComposeBraceAux cs.length cs ++
    scanComposeModAux cs.length cs ++ scanComposeDollarAux cs.length cs
  sortStrings ((allRefs.filter (fun n => !(isDockerInternalVar n))).dedup)

/-! ## Membership characterizations of the Dockerfile comparison -/

theorem mem_getAllVars_iff {info : DockerfileEnvInfo} {k : String} :
    k ∈ GetAllVars info ↔
      (k ∈ keysOf info.envVars ∨ k ∈ keysOf info.argVars ∨ k ∈ info.variableRefs) := by
  simp [GetAllVars, mem_sortStrings, List.mem_dedup, or_assoc]

theorem mem_missingInEnv_iff {info : DockerfileEnvInfo} {envVars : EnvVars} {k : String} :
    k ∈ (compareDockerfileWithEnvVars info envVars).MissingInEnv ↔
      (k ∈ GetAllVars info ∧ k ∉ keysOf info.envVars ∧ k ∉ keysOf envVars) := by
  simp [compareDockerfileWithEnvVars, mem_sortStrings, List.mem_filter,
    hasKey_eq_false_iff]

theorem mem_unusedArgs_iff {info : DockerfileEnvInfo} {envVars : EnvVars} {a : String} :
    a ∈ (compareDockerfileWithEnvVars info envVars).UnusedArgs ↔
      (a ∈ keysOf info.argVars ∧ a ∉ info.variableRefs) := by
  simp [compareDockerfileWithEnvVars, mem_sortStrings, List.mem_filter]

theorem mem_hardcodedEnvs_iff {info : DockerfileEnvInfo} {envVars : EnvVars} {k : String} :
    k ∈ (compareDockerfileWithEnvVars info envVars).HardcodedEnvs ↔
      (∃ p, p ∈ info.envVars ∧ p.1 = k ∧ p.2 ≠ "" ∧ isObviousConstant p.2 = false) := by
  simp only [compareDockerfileWithEnvVars, mem_sortStrings, List.mem_map,
    List.mem_filter, Bool.and_eq_true, Bool.not_eq_true, decide_eq_true_eq]
  constructor
  · rintro ⟨p, ⟨hp, hv, hc⟩, hk⟩
    exact ⟨p, hp, hk, hv, by simpa using hc⟩
  · rintro ⟨p, hp, hk, hv, hc⟩
    exact ⟨p, ⟨hp, hv, by simpa using hc⟩, hk⟩

theorem mem_missingArgDefaults_iff {info : DockerfileEnvInfo} {envVars : EnvVars}
    {a : String} :
    a ∈ (compareDockerfileWithEnvVars info envVars).MissingArgDefaults ↔
      (a, "") ∈ info.argVars := by
  simp only [compareDockerfileWithEnvVars, mem_sortStrings, List.mem_map,
    List.mem_filter, Bool.and_eq_true, beq_iff_eq]
  constructor
  · rintro ⟨p, ⟨hp, hv⟩, hk⟩
    rcases p with ⟨k0, v0⟩
    cases hk
    cases hv
    exact hp
  · intro hp
    exact ⟨(a, ""), ⟨hp, rfl⟩, rfl⟩

/-! ## Claim C2 (corrected) -/

/-- Counterexample to C2 as stated: in the Dockerfile `ARG FOO=bar`, the
name `FOO` is declared by ARG but never referenced (`variableRefs` is
empty), it is absent from the ENV declarations and from the (empty) merged
env set, and yet it appears in `MissingInEnv`. -/
theorem dockerfileMissingInEnv_counterexample :
    (compareDockerfileWithEnvVars (ParseDockerfileLines ["ARG FOO=bar"]) []).MissingInEnv
        = ["FOO"] ∧
    (ParseDockerfileLines ["ARG FOO=bar"]).variableRefs = [] ∧
    keysOf (ParseDockerfileLines ["ARG FOO=bar"]).envVars = [] := by
  refine ⟨by decide, by decide, by decide⟩

/-- C2 amended: `MissingInEnv` contains exactly the names in the
Dockerfile's combined variable list (ENV keys, ARG keys and referenced
names) that are absent from both the Dockerfile's own ENV declarations and
the merged env set — equivalently, the names referenced or ARG-declared and
absent from both.  A name declared only by ENV and never referenced cannot
appear, but an ARG-declared never-referenced name does. -/
theorem dockerfileMissingInEnv_spec (info : DockerfileEnvInfo) (envVars : EnvVars) :
    ∀ k, k ∈ (compareDockerfileWithEnvVars info envVars).MissingInEnv ↔
      ((k ∈ keysOf info.argVars ∨ k ∈ info.variableRefs) ∧
        k ∉ keysOf info.envVars ∧ k ∉ keysOf envVars) := by
  intro k
  rw [mem_missingInEnv_iff, mem_getAllVars_iff]
  constructor
  · rintro ⟨h1 | h1 | h1, h2, h3⟩
    · exact absurd h1 h2
    · exact ⟨Or.inl h1, h2, h3⟩
    · exact ⟨Or.inr h1, h2, h3⟩
  · rintro ⟨h1 | h1, h2, h3⟩
    · exact ⟨Or.inr (Or.inl h1), h2, h3⟩
    · exact ⟨Or.inr (Or.inr h1), h2, h3⟩

/-! ## Claim C3 (corrected) -/

/-- Modelled from the spec's words (§4.3): the claimed heuristic with a
genuinely case-insensitive match against the fixed list. -/
def specObviousConstant (value : String) : Bool :=
  envConstants.any (fun c => asciiToLower value == asciiToLower c) ||
  strStartsWith value "/" ||
  containsSub value "://" ||
  strStartsWith value (String.mk [Char.ofNat 36, Char.ofNat 123])

/-- Counterexample to C3 as stated: the value `C` equals the fixed-list
entry `C` up to case (so under the claimed case-insensitive heuristic it is
an obvious constant and must not be flagged), yet `ENV LANG=C` is flagged
as hardcoded: the source compares the lowered value `c` with the entry `C`,
which can never match. -/
theorem hardcodedEnvs_counterexample :
    (compareDockerfileWithEnvVars (ParseDockerfileLines ["ENV LANG=C"]) []).HardcodedEnvs
        = ["LANG"] ∧
    specObviousConstant "C" = true ∧
    ("C" : String) ≠ "" := by
  refine ⟨by decide, by decide, by decide⟩

/-- C3 amended: an ENV variable appears in `HardcodedEnvs` iff its value is
non-empty and fails `isObviousConstant`, whose list match compares the
ASCII-lowered value with the entries for exact equality: for all-lowercase
entries this is a case-insensitive match, while the entries containing
capitals (`en_US` and `C`) never match any value. -/
theorem hardcodedEnvs_spec (info : DockerfileEnvInfo) (envVars : EnvVars) :
    (∀ k, k ∈ (compareDockerfileWithEnvVars info envVars).HardcodedEnvs ↔
      (∃ p, p ∈ info.envVars ∧ p.1 = k ∧ p.2 ≠ "" ∧ isObviousConstant p.2 = false)) ∧
    (∀ v c, c ∈ envConstants → asciiToLower c = c → asciiToLower v = c →
      isObviousConstant v = true) ∧
    (∀ v, asciiToLower v = "en_us" ∨ asciiToLower v = "c" →
      envConstants.contains (asciiToLower v) = false) := by
  refine ⟨fun k => mem_hardcodedEnvs_iff, ?_, ?_⟩
  · intro v c hc hlc hvc
    have hmem : asciiToLower v ∈ envConstants := by rw [hvc]; exact hc
    simp [isObviousConstant, hmem]
  · intro v hv
    rcases hv with h | h <;> rw [h] <;> decide

/-- Witness for C3's amended statement: `TRUE` matches the all-lowercase
entry `true` case-insensitively, `C` never matches the list, and `LANG=C`
is reported. -/
theorem hardcodedEnvs_spec_witness :
    isObviousConstant "TRUE" = true ∧
    envConstants.contains (asciiToLower "C") = false ∧
    ("LANG" ∈ (compareDockerfileWithEnvVars ⟨[("LANG", "C")], [], []⟩ []).HardcodedEnvs) := by
  refine ⟨?_, ?_, ?_⟩
  · exact (hardcodedEnvs_spec ⟨[], [], []⟩ []).2.1
      "TRUE" "true" (by decide) (by decide) (by decide)
  · exact (hardcodedEnvs_spec ⟨[], [], []⟩ []).2.2 "C" (Or.inr (by decide))
  · exact ((hardcodedEnvs_spec ⟨[("LANG", "C")], [], []⟩ []).1 "LANG").mpr
      ⟨("LANG", "C"), by decide⟩

/-! ## Claim C6 -/

/-- C6: `UnusedArgs` is exactly the ARG-declared names absent from
`variableRefs`, `MissingArgDefaults` is exactly the ARG-declared names
whose stored value is the empty string, an `ARG NAME` declaration without
`=` stores the empty string, and consequently in the Dockerfile
`ARG VERSION` / `ENV APP_VERSION=${VERSION}` the name `VERSION` is not in
`UnusedArgs` (it is referenced through the brace interpolation) but is in
`MissingArgDefaults`. -/
theorem dockerfileArgClassification :
    (∀ (info : DockerfileEnvInfo) (envVars : EnvVars) (a : String),
      (a ∈ (compareDockerfileWithEnvVars info envVars).UnusedArgs ↔
        (a ∈ keysOf info.argVars ∧ a ∉ info.variableRefs)) ∧
      (a ∈ (compareDockerfileWithEnvVars info envVars).MissingArgDefaults ↔
        (a, "") ∈ info.argVars)) ∧
    (ParseDockerfileLines ["ARG NAME"]).argVars = [("NAME", "")] ∧
    ("VERSION" ∉ (compareDockerfileWithEnvVars
        (ParseDockerfileLines ["ARG VERSION", "ENV APP_VERSION=${VERSION}"]) []).UnusedArgs) ∧
    ("VERSION" ∈ (compareDockerfileWithEnvVars
        (ParseDockerfileLines ["ARG VERSION", "ENV APP_VERSION=${VERSION}"]) []).MissingArgDefaults) := by
  refine ⟨?_, by decide, by decide, by decide⟩
  intro info envVars a
  exact ⟨mem_unusedArgs_iff, mem_missingArgDefaults_iff⟩

/-! ## Character discipline of the reference scanners -/

theorem isNameChar_of_start {c : Char} (h : isNameStart c = true) :
    isNameChar c = true := by
  simp [isNameChar, h]

theorem takeName_chars {cs : List Char} {name : String} {rest : List Char}
    (h : takeName cs = some (name, rest)) : ∀ c ∈ name.data, isNameChar c = true := by
  cases cs with
  | nil => simp [takeName] at h
  | cons c r =>
      simp only [takeName] at h
      by_cases hs : isNameStart c = true
      · rw [if_pos hs] at h
        simp only [Option.some.injEq, Prod.mk.injEq] at h
        obtain ⟨h1, h2⟩ := h
        subst h1
        intro x hx
        have hx2 : x ∈ c :: List.takeWhile isNameChar r := hx
        rcases List.mem_cons.mp hx2 with rfl | hx3
        · exact isNameChar_of_start hs
        · exact List.mem_takeWhile_imp hx3
      · rw [if_neg hs] at h
        exact absurd h (by simp)

theorem scanDockerRefs_chars (fuel : Nat) :
    ∀ (cs : List Char) (n : String), n ∈ scanDockerRefsAux fuel cs →
      ∀ c ∈ n.data, isNameChar c = true := by
  induction fuel with
  | zero => intro cs n hn; simp [scanDockerRefsAux] at hn
  | succ fuel ih =>
      intro cs n hn
      cases cs with
      | nil => simp [scanDockerRefsAux] at hn
      | cons c rest =>
          cases rest with
          | nil =>
              simp only [scanDockerRefsAux] at hn
              by_cases hc2 : c = dollarChar
              · rw [if_pos hc2] at hn; simp at hn
              · rw [if_neg hc2] at hn; exact ih _ _ hn
          | cons b rest2 =>
              simp only [scanDockerRefsAux] at hn
              by_cases hd : c = dollarChar
              · rw [if_pos hd] at hn
                by_cases hb : b = openBrace
                · rw [if_pos hb] at hn
                  cases htn : takeName rest2 with
                  | none => rw [htn] at hn; exact ih _ _ hn
                  | some nr =>
                      rw [htn] at hn
                      have hn2 : n = nr.1 ∨
                          n ∈ scanDockerRefsAux fuel (dropCloseBrace nr.2) :=
                        List.mem_cons.mp hn
                      rcases hn2 with rfl | hn3
                      · exact takeName_chars htn
                      · exact ih _ _ hn3
                · rw [if_neg hb] at hn
                  cases htn : takeName (b :: rest2) with
                  | none => rw [htn] at hn; exact ih _ _ hn
                  | some nr =>
                      rw [htn] at hn
                      have hn2 : n = nr.1 ∨
                          n ∈ scanDockerRefsAux fuel (dropCloseBrace nr.2) :=
                        List.mem_cons.mp hn
                      rcases hn2 with rfl | hn3
                      · exact takeName_chars htn
                      · exact ih _ _ hn3
              · rw [if_neg hd] at hn
                exact ih _ _ hn

theorem scanComposeBrace_chars (fuel : Nat) :
    ∀ (cs : List Char) (n : String), n ∈ scanComposeBraceAux fuel cs →
      ∀ c ∈ n.data, isNameChar c = true := by
  induction fuel with
  | zero => intro cs n hn; simp [scanComposeBraceAux] at hn
  | succ fuel ih =>
      intro cs n hn
      cases cs with
      | nil => simp [scanComposeBraceAux] at hn
      | cons c rest =>
          cases rest with
          | nil =>
              simp only [scanComposeBraceAux] at hn
              by_cases hc2 : c = dollarChar
              · rw [if_pos hc2] at hn; simp at hn
              · rw [if_neg hc2] at hn; exact ih _ _ hn
          | cons b rest2 =>
              simp only [scanComposeBraceAux] at hn
              by_cases hd : c = dollarChar
              · rw [if_pos hd] at hn
                by_cases hb : b = openBrace
                · rw [if_pos hb] at hn
                  cases htn : takeName rest2 with
                  | none => rw [htn] at hn; exact ih _ _ hn
                  | some nr =>
                      obtain ⟨nm, rem⟩ := nr
                      rw [htn] at hn
                      have hn0 : n ∈ (match rem with
                          | d :: rest3 =>
                              if d = closeBrace then nm :: scanComposeBraceAux fuel rest3
                              else scanComposeBraceAux fuel (b :: rest2)
                          | [] => scanComposeBraceAux fuel (b :: rest2)) := hn
                      cases rem with
                      | nil => exact ih _ _ hn0
                      | cons d rest3 =>
                          have hn1 : n ∈ (if d = closeBrace then
                              nm :: scanComposeBraceAux fuel rest3
                              else scanComposeBraceAux fuel (b :: rest2)) := hn0
                          by_cases hdc : d = closeBrace
                          · rw [if_pos hdc] at hn1
                            have hn2 : n = nm ∨
                                n ∈ scanComposeBraceAux fuel rest3 :=
                              List.mem_cons.mp hn1
                            rcases hn2 with rfl | hn3
                            · exact takeName_chars htn
                            · exact ih _ _ hn3
                          · rw [if_neg hdc] at hn1
                            exact ih _ _ hn1
                · rw [if_neg hb] at hn
                  exact ih _ _ hn
              · rw [if_neg hd] at hn
                exact ih _ _ hn

theorem scanComposeMod_chars (fuel : Nat) :
    ∀ (cs : List Char) (n : String), n ∈ scanComposeModAux fuel cs →
      ∀ c ∈ n.data, isNameChar c = true := by
  induction fuel with
  | zero => intro cs n hn; simp [scanComposeModAux] at hn
  | succ fuel ih =>
      intro cs n hn
      cases cs with
      | nil => simp [scanComposeModAux] at hn
      | cons c rest =>
          cases rest with
          | nil =>
              simp only [scanComposeModAux] at hn
              by_cases hc2 : c = dollarChar
              · rw [if_pos hc2] at hn; simp at hn
              · rw [if_neg hc2] at hn; exact ih _ _ hn
          | cons b rest2 =>
              simp only [scanComposeModAux] at hn
              by_cases hd : c = dollarChar
              · rw [if_pos hd] at hn
                by_cases hb : b = openBrace
                · rw [if_pos hb] at hn
                  cases htn : takeName rest2 with
                  | none => rw [htn] at hn; exact ih _ _ hn
                  | some nr =>
                      obtain ⟨nm, rem⟩ := nr
                      rw [htn] at hn
                      have hn0 : n ∈ (match rem.dropWhile (fun d => d ≠ closeBrace) with
                          | _ :: rest3 => nm :: scanComposeModAux fuel rest3
                          | [] => scanComposeModAux fuel (b :: rest2)) := hn
                      cases hnr : rem.dropWhile (fun d => d ≠ closeBrace) with
                      | nil => rw [hnr] at hn0; exact ih _ _ hn0
                      | cons d rest3 =>
                          rw [hnr] at hn0
                          have hn1 : n ∈ nm :: scanComposeModAux fuel rest3 := hn0
                          have hn2 : n = nm ∨
                              n ∈ scanComposeModAux fuel rest3 :=
                            List.mem_cons.mp hn1
                          rcases hn2 with rfl | hn3
                          · exact takeName_chars htn
                          · exact ih _ _ hn3
                · rw [if_neg hb] at hn
                  exact ih _ _ hn
              · rw [if_neg hd] at hn
                exact ih _ _ hn

theorem scanComposeDollar_chars (fuel : Nat) :
    ∀ (cs : List Char) (n : String), n ∈ scanComposeDollarAux fuel cs →
      ∀ c ∈ n.data, isNameChar c = true := by
  induction fuel with
  | zero => intro cs n hn; simp [scanComposeDollarAux] at hn
  | succ fuel ih =>
      intro cs n hn
      cases cs with
      | nil => simp [scanComposeDollarAux] at hn
      | cons c rest =>
          simp only [scanComposeDollarAux] at hn
          by_cases hd : c = dollarChar
          · rw [if_pos hd] at hn
            cases htn : takeName rest with
            | none => rw [htn] at hn; exact ih _ _ hn
            | some nr =>
                rw [htn] at hn
                have hn2 : n = nr.1 ∨ n ∈ scanComposeDollarAux fuel nr.2 :=
                  List.mem_cons.mp hn
                rcases hn2 with rfl | hn3
                · exact takeName_chars htn
                · exact ih _ _ hn3
          · rw [if_neg hd] at hn
            exact ih _ _ hn

theorem extractDockerRefs_chars {content n : String}
    (hn : n ∈ extractDockerfileVariableRefs content) :
    ∀ c ∈ n.data, isNameChar c = true := by
  have h1 := mem_sortStrings.mp hn
  rw [List.mem_dedup, List.mem_filter] at h1
  exact scanDockerRefs_chars _ _ _ h1.1

theorem extractComposeRefs_chars {content n : String}
    (hn : n ∈ extractVariableReferences content) :
    ∀ c ∈ n.data, isNameChar c = true := by
  have h1 := mem_sortStrings.mp hn
  rw [List.mem_dedup, List.mem_filter] at h1
  rcases List.mem_append.mp h1.1 with h2 | h2
  · rcases List.mem_append.mp h2 with h3 | h3
    · exact scanComposeBrace_chars _ _ _ h3
    · exact scanComposeMod_chars _ _ _ h3
  · exact scanComposeDollar_chars _ _ _ h2

theorem isNameChar_not_lower {c : Char} (h : isNameChar c = true) :
    ¬(97 ≤ c.toNat ∧ c.toNat ≤ 122) := by
  simp only [isNameChar, isNameStart, Bool.or_eq_true, Bool.and_eq_true,
    decide_eq_true_eq] at h
  omega

/-! ## Claim C10 -/

/-- C10: both reference extractors only capture names matching
`[A-Z_][A-Z0-9_]*`, so no extracted name contains an ASCII lowercase letter
(code points 97–122); consequently an ARG declared with a name containing a
lowercase letter is always reported in `UnusedArgs`, no matter how it is
referenced in the file. -/
theorem referenceExtraction_uppercaseOnly :
    (∀ content n, n ∈ extractDockerfileVariableRefs content →
      ∀ c ∈ n.data, ¬(97 ≤ c.toNat ∧ c.toNat ≤ 122)) ∧
    (∀ content n, n ∈ extractVariableReferences content →
      ∀ c ∈ n.data, ¬(97 ≤ c.toNat ∧ c.toNat ≤ 122)) ∧
    (∀ (lines : List String) (envVars : EnvVars) (a : String),
      a ∈ keysOf (ParseDockerfileLines lines).argVars →
      (∃ c ∈ a.data, 97 ≤ c.toNat ∧ c.toNat ≤ 122) →
      a ∈ (compareDockerfileWithEnvVars (ParseDockerfileLines lines) envVars).UnusedArgs) := by
  refine ⟨?_, ?_, ?_⟩
  · intro content n hn c hc
    exact isNameChar_not_lower (extractDockerRefs_chars hn c hc)
  · intro content n hn c hc
    exact isNameChar_not_lower (extractComposeRefs_chars hn c hc)
  · intro lines envVars a ha hlow
    refine mem_unusedArgs_iff.mpr ⟨ha, fun href => ?_⟩
    obtain ⟨c, hc, hrange⟩ := hlow
    exact isNameChar_not_lower (extractDockerRefs_chars href c hc) hrange

/-- Witness for C10: in `ARG myarg` / `RUN echo $myarg`, the lowercase name
is never extracted and is reported unused. -/
theorem referenceExtraction_uppercaseOnly_witness :
    "myarg" ∈ (compareDockerfileWithEnvVars
      (ParseDockerfileLines ["ARG myarg", "RUN echo $myarg"]) []).UnusedArgs := by
  exact referenceExtraction_uppercaseOnly.2.2 ["ARG myarg", "RUN echo $myarg"] []
    "myarg" (by decide) ⟨Char.ofNat 109, by decide⟩

/-! ## Claim C8 -/

theorem serviceBreakdownStep_cases (envVars : EnvVars)
    (acc : List (String × List String)) (sv : String × EnvVars) :
    serviceBreakdownStep envVars acc sv = acc ∨
    serviceBreakdownStep envVars acc sv =
      acc ++ [(sv.1, sortStrings ((keysOf sv.2).filter (fun v => !(hasKey envVars v))))] := by
  unfold serviceBreakdownStep
  by_cases h : ((keysOf sv.2).filter (fun v => !(hasKey envVars v))).length > 0
  · exact Or.inr (by simp [h])
  · exact Or.inl (by simp [h])

theorem mem_serviceBreakdown_fold (envVars : EnvVars) :
    ∀ (l : List (String × EnvVars)) (acc : List (String × List String)) (p),
      p ∈ l.foldl (serviceBreakdownStep envVars) acc →
      p ∈ acc ∨ ∃ sv ∈ l,
        p = (sv.1, sortStrings ((keysOf sv.2).filter (fun v => !(hasKey envVars v)))) := by
  intro l
  induction l with
  | nil => intro acc p hp; exact Or.inl hp
  | cons sv rest ih =>
      intro acc p hp
      rw [List.foldl_cons] at hp
      rcases ih _ p hp with hacc | ⟨sv2, h1, h2⟩
      · rcases serviceBreakdownStep_cases envVars acc sv with hc | hc
        · rw [hc] at hacc
          exact Or.inl hacc
        · rw [hc] at hacc
          rcases List.mem_append.mp hacc with h3 | h3
          · exact Or.inl h3
          · refine Or.inr ⟨sv, List.mem_cons_self sv rest, ?_⟩
            simpa using h3
      · exact Or.inr ⟨sv2, List.mem_cons_of_mem sv h1, h2⟩

/-- C8: every string list inside a returned diff result — for each of the
three comparison kinds, including every per-service list of the compose
`ServiceBreakdown` — is strictly ascending in the lexicographic order (so
it is sorted and holds no duplicates).  The nodup hypotheses on the input
key lists are invariants of the Go `map` type the inputs model. -/
theorem diffResult_lists_sorted_nodup :
    (∀ env exampleVars : EnvVars, (keysOf env).Nodup → (keysOf exampleVars).Nodup →
      List.Pairwise (fun a b : String => a < b) (CompareEnvVars env exampleVars).Missing ∧
      List.Pairwise (fun a b : String => a < b) (CompareEnvVars env exampleVars).Extra) ∧
    (∀ (info : ComposeEnvInfo) (envVars : EnvVars) (fileOk : String → Bool),
      (keysOf envVars).Nodup → info.EnvFiles.Nodup →
      List.Pairwise (fun a b : String => a < b)
        (compareComposeWithEnvVars info envVars fileOk).MissingInEnv ∧
      List.Pairwise (fun a b : String => a < b)
        (compareComposeWithEnvVars info envVars fileOk).ExtraInEnv ∧
      List.Pairwise (fun a b : String => a < b)
        (compareComposeWithEnvVars info envVars fileOk).MissingEnvFiles ∧
      (∀ p ∈ (compareComposeWithEnvVars info envVars fileOk).ServiceBreakdown,
        (∀ sv ∈ info.ServiceVars, (keysOf sv.2).Nodup) →
        List.Pairwise (fun a b : String => a < b) p.2)) ∧
    (∀ (info : DockerfileEnvInfo) (envVars : EnvVars),
      (keysOf envVars).Nodup → (keysOf info.envVars).Nodup →
      (keysOf info.argVars).Nodup →
      List.Pairwise (fun a b : String => a < b)
        (compareDockerfileWithEnvVars info envVars).MissingInEnv ∧
      List.Pairwise (fun a b : String => a < b)
        (compareDockerfileWithEnvVars info envVars).ExtraInEnv ∧
      List.Pairwise (fun a b : String => a < b)
        (compareDockerfileWithEnvVars info envVars).UnusedArgs ∧
      List.Pairwise (fun a b : String => a < b)
        (compareDockerfileWithEnvVars info envVars).HardcodedEnvs ∧
      List.Pairwise (fun a b : String => a < b)
        (compareDockerfileWithEnvVars info envVars).MissingArgDefaults) := by
  refine ⟨?_, ?_, ?_⟩
  · intro env exampleVars henv hex
    exact ⟨pairwise_lt_sortStrings (hex.filter _),
      pairwise_lt_sortStrings (henv.filter _)⟩
  · intro info envVars fileOk henv hfiles
    refine ⟨?_, ?_, ?_, ?_⟩
    · exact pairwise_lt_sortStrings
        ((nodup_sortStrings (List.nodup_dedup _)).filter _)
    · exact pairwise_lt_sortStrings (henv.filter _)
    · exact pairwise_lt_sortStrings (hfiles.filter _)
    · intro p hp hsv
      rcases mem_serviceBreakdown_fold envVars info.ServiceVars [] p hp with h0 | ⟨sv, h1, h2⟩
      · exact absurd h0 (by simp)
      · rw [h2]
        exact pairwise_lt_sortStrings ((hsv sv h1).filter _)
  · intro info envVars henv hdenv hdarg
    refine ⟨?_, ?_, ?_, ?_, ?_⟩
    · exact pairwise_lt_sortStrings
        ((nodup_sortStrings (List.nodup_dedup _)).filter _)
    · exact pairwise_lt_sortStrings (henv.filter _)
    · exact pairwise_lt_sortStrings (hdarg.filter _)
    · refine pairwise_lt_sortStrings ?_
      have hsub : List.Sublist
          ((info.envVars.filter
            (fun p => p.2 ≠ "" && !(isObviousConstant p.2))).map Prod.fst)
          (info.envVars.map Prod.fst) :=
        (List.filter_sublist _).map Prod.fst
      exact hdenv.sublist hsub
    · refine pairwise_lt_sortStrings ?_
      have hsub : List.Sublist
          ((info.argVars.filter (fun p => p.2 == "")).map Prod.fst)
          (info.argVars.map Prod.fst) :=
        (List.filter_sublist _).map Prod.fst
      exact hdarg.sublist hsub

/-- Witness for C8 at concrete inputs of all three comparison kinds. -/
theorem diffResult_lists_sorted_nodup_witness :
    List.Pairwise (fun a b : String => a < b)
      (CompareEnvVars [("DB_HOST", "x"), ("EXTRA", "z")]
        [("DB_HOST", "x"), ("API_KEY", "y")]).Missing ∧
    List.Pairwise (fun a b : String => a < b)
      (compareComposeWithEnvVars ⟨[("B", "1"), ("A", "2")], [], [".env"], ["C"]⟩ []
        (fun _ => false)).MissingInEnv ∧
    List.Pairwise (fun a b : String => a < b)
      (compareDockerfileWithEnvVars ⟨[], [("Z", "")], ["Z"]⟩
        [("M", "1")]).ExtraInEnv := by
  refine ⟨?_, ?_, ?_⟩
  · exact ((diffResult_lists_sorted_nodup.1 [("DB_HOST", "x"), ("EXTRA", "z")]
      [("DB_HOST", "x"), ("API_KEY", "y")] (by decide) (by decide)).1)
  · exact (diffResult_lists_sorted_nodup.2.1 ⟨[("B", "1"), ("A", "2")], [], [".env"], ["C"]⟩
      [] (fun _ => false) (by decide) (by decide)).1
  · exact (diffResult_lists_sorted_nodup.2.2 ⟨[], [("Z", "")], ["Z"]⟩
      [("M", "1")] (by decide) (by decide) (by decide)).2.1

/-! ## Claim C9 -/

/-- The append phase of `cli.runSync` on the env file's lines: nothing is
written when nothing is missing; otherwise a separator comment is appended
when the parsed env set is non-empty, then one `KEY=` line per missing
key, in order. -/
def syncAppendLines (lines : List String) (env : EnvVars)
    (missing : List String) : List String :=
  if missing = [] then lines
  else lines ++ (if env.length > 0 then ["", "# Added by envquack sync"] else []) ++
    missing.map (fun k => k ++ "=")

/-- `cli.runSync` against a parsed example set: parse the env lines, compute
the missing keys with `CompareEnvVars`, and append. -/
def runSyncLines (lines : List String) (exampleVars : EnvVars) : List String :=
  syncAppendLines lines (ParseEnvLines lines)
    (CompareEnvVars (ParseEnvLines lines) exampleVars).Missing

/-- A well-formed dotenv key: the line `k ++ "="` parses back to exactly the
binding of `k` to the empty string (decidable; true of every syntactically
reasonable variable name). -/
def goodKey (k : String) : Bool := envLineStep [] (k ++ "=") == [(k, "")]

theorem mem_compareMissing_iff {env ex : EnvVars} {k : String} :
    k ∈ (CompareEnvVars env ex).Missing ↔
      (k ∈ keysOf ex ∧ hasKey env k = false) := by
  simp only [CompareEnvVars, mem_sortStrings, List.mem_filter,
    Bool.not_eq_true']

theorem nodup_compareMissing {env ex : EnvVars} (h : (keysOf ex).Nodup) :
    (CompareEnvVars env ex).Missing.Nodup :=
  nodup_sortStrings (h.filter _)

theorem envLineStep_goodKey {k : String} (h : goodKey k = true) (vars : EnvVars) :
    envLineStep vars (k ++ "=") = insertVar vars k "" := by
  have h0 : envLineStep [] (k ++ "=") = [(k, "")] := by
    unfold goodKey at h
    exact eq_of_beq h
  rw [envLineStep_eq_spec] at h0 ⊢
  cases hs : specDotenvLine (k ++ "=") with
  | none =>
      rw [hs] at h0
      have h1 : ([] : EnvVars) = [(k, "")] := h0
      exact absurd h1 (by simp)
  | some kv =>
      rw [hs] at h0
      have h1 : [(kv.1, kv.2)] = [(k, "")] := h0
      simp only [List.cons.injEq, Prod.mk.injEq, and_true] at h1
      show insertVar vars kv.1 kv.2 = insertVar vars k ""
      rw [h1.1, h1.2]

theorem envLineStep_blank (vars : EnvVars) : envLineStep vars "" = vars := rfl

theorem envLineStep_syncComment (vars : EnvVars) :
    envLineStep vars "# Added by envquack sync" = vars := rfl

theorem insertVar_fresh {e : EnvVars} {k : String} (v : String)
    (h : hasKey e k = false) : insertVar e k v = e ++ [(k, v)] := by
  simp [insertVar, h]

theorem hasKey_append {e1 e2 : EnvVars} {k : String} :
    hasKey (e1 ++ e2) k = (hasKey e1 k || hasKey e2 k) := by
  simp [hasKey, List.any_append]

theorem getVar_append_left {e1 e2 : EnvVars} {k : String}
    (h : hasKey e1 k = true) : getVar (e1 ++ e2) k = getVar e1 k := by
  unfold getVar
  rw [List.find?_append]
  obtain ⟨x, hx⟩ : ∃ x, e1.find? (fun p => p.1 == k) = some x := by
    rw [← Option.isSome_iff_exists, List.find?_isSome]
    unfold hasKey at h
    simpa [List.any_eq_true] using h
  rw [hx]
  rfl

theorem find?_mapped_missing {j : String} :
    ∀ {l : List String}, j ∈ l →
      (l.map (fun k => (k, ""))).find? (fun p => p.1 == j) = some (j, "") := by
  intro l
  induction l with
  | nil => intro h; exact absurd h (List.not_mem_nil j)
  | cons k0 rest ih =>
      intro hj
      simp only [List.map_cons]
      by_cases hk : k0 = j
      · subst hk
        exact List.find?_cons_of_pos _ (by simp)
      · rw [List.find?_cons_of_neg _ (by simpa using hk)]
        have hj2 : j ∈ rest := by
          rcases List.mem_cons.mp hj with h | h
          · exact absurd h.symm hk
          · exact h
        exact ih hj2

theorem foldl_goodKeys :
    ∀ (missing : List String) (env : EnvVars),
      (∀ k ∈ missing, goodKey k = true) →
      (∀ k ∈ missing, hasKey env k = false) →
      missing.Nodup →
      (missing.map (fun k => k ++ "=")).foldl envLineStep env
        = env ++ missing.map (fun k => (k, "")) := by
  intro missing
  induction missing with
  | nil => intro env _ _ _; simp
  | cons k rest ih =>
      intro env hg hf hnd
      simp only [List.map_cons, List.foldl_cons]
      rw [envLineStep_goodKey (hg k (List.mem_cons_self k rest)) env,
        insertVar_fresh "" (hf k (List.mem_cons_self k rest))]
      have hknotin : k ∉ rest := (List.nodup_cons.mp hnd).1
      have hf2 : ∀ j ∈ rest, hasKey (env ++ [(k, "")]) j = false := by
        intro j hj
        rw [hasKey_append]
        have h1 : hasKey env j = false := hf j (List.mem_cons_of_mem k hj)
        have h2 : hasKey [(k, "")] j = false := by
          simp only [hasKey, List.any_cons, List.any_nil, Bool.or_false,
            beq_eq_false_iff_ne, ne_eq]
          intro hkj
          exact hknotin (by rw [hkj]; exact hj)
        rw [h1, h2]
        rfl
      rw [ih (env ++ [(k, "")]) (fun j hj => hg j (List.mem_cons_of_mem k hj))
        hf2 (List.nodup_cons.mp hnd).2]
      simp

/-- C9: dotenv sync round-trip.  Parsing the env lines, appending one
`KEY=` line for each key of `missing(env, example)` (with the separator
comment the source writes when the env set is non-empty), and re-parsing
yields a variable set whose keys are the union of the original keys and the
missing keys, where every newly added key maps to the empty string and
every pre-existing key keeps its original value.  The hypotheses say that
the example's keys are syntactically well-formed variable names and that
its key list is duplicate-free (an invariant of the Go map it models). -/
theorem dotenvSyncRoundTrip (lines : List String) (exampleVars : EnvVars)
    (hg : ∀ k ∈ keysOf exampleVars, goodKey k = true)
    (hnd : (keysOf exampleVars).Nodup) :
    (∀ k, hasKey (ParseEnvLines (runSyncLines lines exampleVars)) k
      = (hasKey (ParseEnvLines lines) k ||
        (CompareEnvVars (ParseEnvLines lines) exampleVars).Missing.contains k)) ∧
    (∀ k, k ∈ (CompareEnvVars (ParseEnvLines lines) exampleVars).Missing →
      getVar (ParseEnvLines (runSyncLines lines exampleVars)) k = some "") ∧
    (∀ k, hasKey (ParseEnvLines lines) k = true →
      getVar (ParseEnvLines (runSyncLines lines exampleVars)) k
        = getVar (ParseEnvLines lines) k) := by
  set env := ParseEnvLines lines with henv
  set missing := (CompareEnvVars env exampleVars).Missing with hmissing
  by_cases hnil : missing = []
  · have hrun : runSyncLines lines exampleVars = lines := by
      unfold runSyncLines syncAppendLines
      rw [← henv, ← hmissing, if_pos hnil]
    rw [hrun, ← henv, hnil]
    refine ⟨fun k => ?_, fun k hk => absurd hk (List.not_mem_nil k), fun k _ => rfl⟩
    rw [show List.contains ([] : List String) k = false from rfl, Bool.or_false]
  · have hmg : ∀ k ∈ missing, goodKey k = true := fun k hk =>
      hg k (mem_compareMissing_iff.mp hk).1
    have hmf : ∀ k ∈ missing, hasKey env k = false := fun k hk =>
      (mem_compareMissing_iff.mp hk).2
    have hmnd : missing.Nodup := nodup_compareMissing hnd
    have hsep : ∀ e0 : EnvVars,
        ((if env.length > 0 then ["", "# Added by envquack sync"] else []) : List String).foldl
          envLineStep e0 = e0 := by
      intro e0
      by_cases hl : env.length > 0
      · rw [if_pos hl]
        rw [List.foldl_cons, List.foldl_cons, List.foldl_nil,
          envLineStep_blank, envLineStep_syncComment]
      · rw [if_neg hl]
        rfl
    have hparse : ParseEnvLines (runSyncLines lines exampleVars)
        = env ++ missing.map (fun k => (k, "")) := by
      unfold runSyncLines syncAppendLines
      rw [← henv, ← hmissing, if_neg hnil]
      unfold ParseEnvLines
      rw [List.foldl_append, List.foldl_append]
      have h1 : List.foldl envLineStep [] lines = env := henv.symm
      rw [h1, hsep env]
      exact foldl_goodKeys missing env hmg hmf hmnd
    rw [hparse]
    refine ⟨?_, ?_, ?_⟩
    · intro k
      rw [hasKey_append]
      have h2 : hasKey (missing.map (fun k0 => (k0, ""))) k = missing.contains k := by
        rw [Bool.eq_iff_iff]
        simp [hasKey, List.any_eq_true, List.contains, List.elem_iff]
      rw [h2]
    · intro k hk
      have hfresh : hasKey env k = false := hmf k hk
      unfold getVar
      rw [List.find?_append]
      have hnone : env.find? (fun p => p.1 == k) = none := by
        rw [List.find?_eq_none]
        intro p hp
        by_contra hb
        have : hasKey env k = true := by
          unfold hasKey
          rw [List.any_eq_true]
          exact ⟨p, hp, by simpa using hb⟩
        rw [this] at hfresh
        exact absurd hfresh (by simp)
      rw [hnone, Option.none_or, find?_mapped_missing hk]
      rfl
    · intro k hk
      exact getVar_append_left hk

/-- Witness for C9 at the spec scenario: after syncing env
`DB_HOST=x, EXTRA=z` against example `DB_HOST, API_KEY`, the re-parsed set
holds `API_KEY` bound to the empty string and `DB_HOST` unchanged. -/
theorem dotenvSyncRoundTrip_witness :
    getVar (ParseEnvLines (runSyncLines ["DB_HOST=x", "EXTRA=z"]
      [("DB_HOST", "x"), ("API_KEY", "y")])) "API_KEY" = some "" ∧
    getVar (ParseEnvLines (runSyncLines ["DB_HOST=x", "EXTRA=z"]
      [("DB_HOST", "x"), ("API_KEY", "y")])) "DB_HOST" = some "x" := by
  have h := dotenvSyncRoundTrip ["DB_HOST=x", "EXTRA=z"]
    [("DB_HOST", "x"), ("API_KEY", "y")] (by decide) (by decide)
  constructor
  · exact h.2.1 "API_KEY" (by decide)
  · have h3 := h.2.2 "DB_HOST" (by decide)
    rw [h3]
    decide

end EnvQuack
